import Mathlib

set_option maxHeartbeats 1000000

/-!
A verification development for the LogReader application core
(`app/app.py`, `app/util.py`).  Strings are modelled as `List Char`;
Python's `re` module appears only through the two fixed regular
expressions of the source (`^\d{4}-\d{2}-\d{2}` and `^.*\sKW\s`), which
are embedded directly, and through an abstract engine parameter for
user-supplied regex patterns.  Tkinter's text widget is modelled at the
character level: the stored text always ends with the widget's protected
final newline; `insert(END, t)` inserts just before it, and
`delete("N.0", END)` deletes up to the protected newline, backing the
start index up over the newline that ended line N-1 (Tk's documented
behaviour, which is what the compensating `insert(END, "\n")` in
`updateLogWidget` relies on).
-/

namespace LogReader

/-- ASCII lowercase conversion, modelling Python `str.lower` on the ASCII
range (the only range exercised by the fixed patterns of the program). -/
def pyLower (c : Char) : Char := c.toLower

/-- Python `str.lower` lifted to a whole string. -/
def lowerStr (s : List Char) : List Char := s.map pyLower

/-- Python's `\s` character class restricted to ASCII:
space, tab, newline, carriage return, vertical tab, form feed. -/
def isPySpace (c : Char) : Bool :=
  c = ' ' || c = '\t' || c = '\n' || c = '\r' || c = '\x0b' || c = '\x0c'

/-- The test `re.search(r"^\d{4}-\d{2}-\d{2}", line)` from
`Application.oLogLineRegex`: the line starts with a `YYYY-MM-DD` date. -/
def isLogLineStart (s : List Char) : Bool :=
  match s with
  | d1 :: d2 :: d3 :: d4 :: h1 :: d5 :: d6 :: h2 :: d7 :: d8 :: _ =>
      d1.isDigit && d2.isDigit && d3.isDigit && d4.isDigit && h1 = '-' &&
      d5.isDigit && d6.isDigit && h2 = '-' && d7.isDigit && d8.isDigit
  | _ => false

/-- One anchor position of the severity regex `^.*\sKW\s`: a whitespace
character, the keyword, then another whitespace character. -/
def matchAt (kw s : List Char) : Bool :=
  match s with
  | [] => false
  | c :: rest =>
      isPySpace c && kw.isPrefixOf rest &&
        (match rest.drop kw.length with
         | [] => false
         | w :: _ => isPySpace w)

/-- The search `re.search(r"^.*\sKW\s", s)`: the `^` anchors at position 0 and `.*`
cannot cross a newline, so the regex matches iff `matchAt` succeeds at
some position whose prefix is newline-free. -/
def levelSearch (kw : List Char) : List Char → Bool
  | [] => false
  | c :: rest => matchAt kw (c :: rest) || (if c = '\n' then false else levelSearch kw rest)

/-- Does `pat` occur in `t` at offset `i`? (`str.find` test at one offset.) -/
def hasSubstrAt (t pat : List Char) (i : Nat) : Bool := pat.isPrefixOf (t.drop i)

/-- Python `t.find(pat, start)`: smallest offset `≥ start` at which `pat`
occurs in `t`, if any. -/
def strFind (t pat : List Char) (start : Nat) : Option Nat :=
  (List.range (t.length + 1)).find? (fun i => decide (start ≤ i) && hasSubstrAt t pat i)

/-- The loop of `util.findAll`, with fuel: find the next occurrence at or
after `start`, yield it, and continue past its end. -/
def findAllFrom (t pat : List Char) : Nat → Nat → List Nat
  | _, 0 => []
  | start, fuel + 1 =>
      match strFind t pat start with
      | none => []
      | some i => i :: findAllFrom t pat (i + pat.length) fuel

/-- The generator `util.findAll(sText, sExpr)`: all left-to-right non-overlapping
occurrences.  The fuel `t.length + 1` is enough for any non-empty
pattern (the only way the program calls it). -/
def findAll (t pat : List Char) : List Nat := findAllFrom t pat 0 (t.length + 1)

/-- The `Pattern` class: a raw query string and its regex-or-literal mode
flag.  The lazily compiled `oRegex` is passed separately as an abstract
engine (`none` models a failed compilation of an invalid regex). -/
structure Pattern where
  sPattern : List Char
  bRegex : Bool
deriving Repr, DecidableEq

/-- Method `Pattern.getAllMatches`: empty pattern yields nothing; in regex mode
the spans come from the compiled engine (nothing if compilation failed);
in literal mode both text and pattern are lowercased and scanned with
`findAll`, each hit spanning `iLen = len(sPattern)` characters. -/
def Pattern.getAllMatches (p : Pattern)
    (oRegex : Option (List Char → List (Nat × Nat))) (sText : List Char) :
    List (Nat × Nat) :=
  if p.sPattern.isEmpty then []
  else if p.bRegex then
    match oRegex with
    | none => []
    | some f => f sText
  else
    (findAll (lowerStr sText) (lowerStr p.sPattern)).map (fun i => (i, i + p.sPattern.length))

/-- Method `Pattern.matches`: true iff the raw string is empty or at least one
match span exists (`getFirstMatch` is the head of `getAllMatches`). -/
def Pattern.matches (p : Pattern) (oRegex : Option (List Char → List (Nat × Nat)))
    (sText : List Char) : Bool :=
  p.sPattern.isEmpty || !(p.getAllMatches oRegex sText).isEmpty

/-- The `LogLevel` class: name, detection keyword (the `KW` of its fixed
regex `^.*\sKW\s`), display colour, and visibility toggle. -/
structure LogLevel where
  sName : String
  kw : List Char
  sColor : String
  bDisplay : Bool
deriving Repr, DecidableEq

/-- Method `LogLevel.matches`: `self.oRegex.search(sLogLine) is not None`. -/
def LogLevel.matches (l : LogLevel) (sLogLine : List Char) : Bool :=
  levelSearch l.kw sLogLine

/-- Field `Application.lLogLevels`: the fixed severity table, in declaration
order, all initially displayed. -/
def lLogLevels : List LogLevel :=
  [⟨"Error", "ERROR".data, "red", true⟩,
   ⟨"Warning", "WARN".data, "orange", true⟩,
   ⟨"Info", "INFO".data, "blue", true⟩,
   ⟨"Debug", "DEBUG".data, "black", true⟩]

/-- Recursion for `getLogLevel`, tracking the index of the level under
test (records hold an index into the level table, modelling the shared
mutable `LogLevel` reference of the Python object). -/
def getLogLevelAux (levels : List LogLevel) (s : List Char) (i : Nat) : Option Nat :=
  match levels with
  | [] => none
  | l :: rest => if l.matches s then some i else getLogLevelAux rest s (i + 1)

/-- Method `Application.getLogLevel`: index of the first level (in declared
order) whose detection regex matches, `none` if no level matches. -/
def getLogLevel (levels : List LogLevel) (s : List Char) : Option Nat :=
  getLogLevelAux levels s 0

/-- The `Expression` class: one logical log record. -/
structure Expression where
  sText : List Char
  oLogLevel : Option Nat
  sStartIdx : Option Nat
  sEndIdx : Option Nat
  bDisplay : Bool
deriving Repr, DecidableEq

/-- Constructor `Expression.__init__`: fresh record, indices unset, displayed. -/
def mkExpression (sText : List Char) (oLogLevel : Option Nat) : Expression :=
  ⟨sText, oLogLevel, none, none, true⟩

/-- Python `s.rstrip("\n")`. -/
def rstripNl (s : List Char) : List Char :=
  (s.reverse.dropWhile (fun c => c = '\n')).reverse

/-- The preprocessing of `appendLogLines`:
`filter(lambda s: bool(s), [s.rstrip("\n") for s in lLines])`. -/
def cleanLines (lLines : List (List Char)) : List (List Char) :=
  (lLines.map rstripNl).filter (fun s => !s.isEmpty)

/-- The continuation branch of `appendLogLines`: append `"\n" + line` to
the text of the last record. -/
def extendLast (exprs : List Expression) (sLine : List Char) : List Expression :=
  match exprs.getLast? with
  | none => exprs
  | some e => exprs.dropLast ++ [{ e with sText := e.sText ++ '\n' :: sLine }]

/-- One iteration of the `appendLogLines` loop.  Note the source computes
`oLogLevel = self.getLogLevel(sLine) if bIsExpr is not None else None`;
`bIsExpr is not None` is always true for a bool, so every newly created
record is classified, including one promoted from a continuation line. -/
def processLine (levels : List LogLevel) (exprs : List Expression)
    (sLine : List Char) : List Expression :=
  if isLogLineStart sLine || exprs.isEmpty then
    exprs ++ [mkExpression sLine (getLogLevel levels sLine)]
  else extendLast exprs sLine

/-- The read `self.lExpressions[-1].bDisplay` guarded by non-emptiness. -/
def lastDisplayed (exprs : List Expression) : Bool :=
  match exprs.getLast? with
  | none => false
  | some e => e.bDisplay

/-- Method `Application.appendLogLines`: returns the updated record list and the
`iFirstExprIdx` that is passed to `updateLogWidget`.  `iFirstExprIdx`
starts at `len(self.lExpressions)` and is decremented only when the first
cleaned line is a continuation and the extended record is displayed. -/
def appendLogLines (levels : List LogLevel) (exprs : List Expression)
    (lLines : List (List Char)) : List Expression × Nat :=
  match cleanLines lLines with
  | [] => (exprs, exprs.length)
  | l0 :: rest =>
      let dirty :=
        if isLogLineStart l0 || exprs.isEmpty then exprs.length
        else if lastDisplayed exprs then exprs.length - 1
        else exprs.length
      (rest.foldl (processLine levels) (processLine levels exprs l0), dirty)

/-- Split a chunk at newline characters (auxiliary for `splitlines`). -/
def splitOnNl : List Char → List (List Char)
  | [] => [[]]
  | c :: rest =>
      if c = '\n' then [] :: splitOnNl rest
      else
        match splitOnNl rest with
        | [] => [[c]]
        | l :: ls => (c :: l) :: ls

/-- Python `str.splitlines()` for `\n`-separated text (the separator the
program produces): a trailing newline does not produce a final empty
line, and the empty string yields no lines. -/
def pySplitlines (s : List Char) : List (List Char) :=
  let r := splitOnNl s
  if r.getLast? = some [] then r.dropLast else r

/-- The stored text of an empty Tk text widget: just the protected final
newline. -/
def emptyWidget : List Char := ['\n']

/-- Offset of the start of line `n` (1-based) in stored widget text:
skip `k` newline characters, clamping at the end of the text. -/
def lineStartAux : List Char → Nat → Nat → Nat
  | [], _, pos => pos
  | c :: rest, k, pos =>
      if k = 0 then pos
      else lineStartAux rest (if c = '\n' then k - 1 else k) (pos + 1)

/-- Offset of Tk index `"n.0"` in the stored widget text. -/
def lineStartPos (S : List Char) (n : Nat) : Nat := lineStartAux S (n - 1) 0

/-- Tk `delete("n.0", END)`: deletes from the start of line `n` up to the
protected final newline; when something is in range and a newline
immediately precedes the start index, the start index backs up over it
(so the deletion also removes the newline that ended line `n-1`). -/
def deleteToEnd (S : List Char) (n : Nat) : List Char :=
  let e := S.length - 1
  let i1 := lineStartPos S n
  if i1 ≤ e then
    (if 0 < i1 then S.take (i1 - 1) else []) ++ S.drop e
  else S

/-- Tk `insert(END, t)`: insert just before the protected final newline. -/
def insertAtEnd (S t : List Char) : List Char := S.dropLast ++ t ++ ['\n']

/-- Python `sText.count("\n")`. -/
def countNl (s : List Char) : Nat := s.count '\n'

/-- One instruction of the edit script `updateLogWidget` applies to the
widget: truncate the rendered output from a line, or append one record's
text tagged with an optional severity (index into the level table). -/
inductive EditOp where
  | truncateFrom : Nat → EditOp
  | append : List Char → Option Nat → EditOp
deriving Repr, DecidableEq

/-- The check `oExpr.oLogLevel is None or oExpr.oLogLevel.bDisplay` read through
the level table (the record stores an index into it). -/
def levelEnabled (levels : List LogLevel) (o : Option Nat) : Bool :=
  match o with
  | none => true
  | some i => ((levels.get? i).map LogLevel.bDisplay).getD false

/-- The visibility recomputed by the `updateLogWidget` loop body:
filter pattern matches the text, and the severity (if any) is toggled
on. -/
def specVisible (levels : List LogLevel) (p : Pattern)
    (r : Option (List Char → List (Nat × Nat))) (e : Expression) : Bool :=
  p.matches r e.sText && levelEnabled levels e.oLogLevel

/-- One iteration of the `for oExpr in lExprToUpdate` loop of
`updateLogWidget`: the accumulator carries the processed records, the
widget text, `iStartLineNumber`, and the edit script built so far.  An
invisible record keeps its stale `sStartIdx`/`sEndIdx` (the source only
writes them when `oExpr.bDisplay`). -/
def projectOne (levels : List LogLevel) (p : Pattern)
    (r : Option (List Char → List (Nat × Nat)))
    (acc : List Expression × List Char × Nat × List EditOp) (e : Expression) :
    List Expression × List Char × Nat × List EditOp :=
  let disp : Bool :=
    if p.matches r e.sText then
      match e.oLogLevel with
      | some i => ((levels.get? i).map LogLevel.bDisplay).getD false
      | none => true
    else false
  if disp then
    let endLine := acc.2.2.1 + 1 + countNl e.sText
    (acc.1 ++ [{ e with bDisplay := true
                        sStartIdx := some acc.2.2.1
                        sEndIdx := some endLine }],
     insertAtEnd acc.2.1 (e.sText ++ ['\n']), endLine,
     acc.2.2.2 ++ [EditOp.append e.sText e.oLogLevel])
  else
    (acc.1 ++ [{ e with bDisplay := false }], acc.2.1, acc.2.2.1, acc.2.2.2)

/-- The state `updateLogWidget` reads and writes: the record list and the
stored widget text. -/
structure ProjState where
  exprs : List Expression
  widget : List Char
deriving Repr, DecidableEq

/-- Method `Application.updateLogWidget(iStartIdx)`: split the records at the
dirty index, read `iStartLineNumber` from the cached `sEndIdx` of the
last record before it (`1` if none; `none` models the `AttributeError`
when that cache was never written), truncate the widget there, reinsert
the newline ending the previous line when not at the origin, and re-emit
every record at or after the dirty index.  Returns the new state and the
edit script (`truncateFrom` then one `append` per visible record). -/
def updateLogWidget (levels : List LogLevel) (p : Pattern)
    (r : Option (List Char → List (Nat × Nat))) (st : ProjState)
    (iStartIdx : Nat) : Option (ProjState × List EditOp) :=
  let lOldExpr := st.exprs.take iStartIdx
  let lExprToUpdate := st.exprs.drop iStartIdx
  let startLineO : Option Nat :=
    match lOldExpr.getLast? with
    | none => some 1
    | some e => e.sEndIdx
  match startLineO with
  | none => none
  | some n =>
      let S1 := deleteToEnd st.widget n
      let S2 := if 1 < n then insertAtEnd S1 ['\n'] else S1
      let res := lExprToUpdate.foldl (projectOne levels p r)
        (lOldExpr, S2, n, [EditOp.truncateFrom n])
      some (⟨res.1, res.2.1⟩, res.2.2.2)

/-- Specification companion of the loop of `updateLogWidget`, recursing
on the records to update while threading `iStartLineNumber` (the widget
text does not influence it). -/
def projExprs (levels : List LogLevel) (p : Pattern)
    (r : Option (List Char → List (Nat × Nat))) (n : Nat) :
    List Expression → List Expression
  | [] => []
  | e :: rest =>
      if specVisible levels p r e then
        { e with bDisplay := true
                 sStartIdx := some n
                 sEndIdx := some (n + 1 + countNl e.sText) } ::
          projExprs levels p r (n + 1 + countNl e.sText) rest
      else { e with bDisplay := false } :: projExprs levels p r n rest

/-- The append part of the edit script: one instruction per visible
record, in order, tagged with its severity. -/
def projScript (levels : List LogLevel) (p : Pattern)
    (r : Option (List Char → List (Nat × Nat))) (l : List Expression) :
    List EditOp :=
  (l.filter (specVisible levels p r)).map (fun e => EditOp.append e.sText e.oLogLevel)

/-- Spans are non-overlapping and left-to-right: each span starts at or
after the previous span's end. -/
def spansOrdered (l : List (Nat × Nat)) : Prop :=
  List.Chain' (fun a b => a.2 ≤ b.1) l

/-- Span start offsets are strictly increasing. -/
def spansStrict (l : List (Nat × Nat)) : Prop :=
  List.Chain' (fun a b => a.1 < b.1) l

/-- The controller state touched by `openNewSourceFile` and
`startFileWatch`: records, widget text, recent-files list, the
file-watch flag, and the chunk queue. -/
structure AppState where
  lExpressions : List Expression
  widget : List Char
  lRecentSourceFiles : List (List Char)
  bWatchFile : Bool
  queue : List (List Char)
deriving Repr, DecidableEq

/-- Method `Application.clearLog`: empty the record list and delete the whole
widget text. -/
def clearLog (st : AppState) : AppState :=
  { st with lExpressions := [], widget := deleteToEnd st.widget 1 }

/-- Method `Application.stopFileWatch`: request cancellation and join. -/
def stopFileWatch (st : AppState) : AppState := { st with bWatchFile := false }

/-- Method `Application.startFileWatch`: stop any previous watch, clear the log,
clear the queue, start the new watch thread (which sets `bWatchFile`). -/
def startFileWatch (st : AppState) : AppState :=
  let st1 := clearLog (stopFileWatch st)
  { st1 with queue := [], bWatchFile := true }

/-- The recent-files bookkeeping of `openNewSourceFile`: move the path to
the front. -/
def updateRecentFiles (st : AppState) (path : List Char) : AppState :=
  { st with lRecentSourceFiles := path :: st.lRecentSourceFiles.erase path }

/-- Method `Application.openNewSourceFile`: when `os.path.isfile` fails, show a
warning and return (no watch started, nothing cleared); otherwise update
the recent files and start the watch.  The returned flag tells whether a
watch was started. -/
def openNewSourceFile (bIsFile : Bool) (path : List Char) (st : AppState) :
    AppState × Bool :=
  if !bIsFile then (st, false)
  else (startFileWatch (updateRecentFiles st path), true)

/-- The level table after the user toggles the Info check button off
(`setLogLevelDisplay`). -/
def infoOffLevels : List LogLevel :=
  [⟨"Error", "ERROR".data, "red", true⟩,
   ⟨"Warning", "WARN".data, "orange", true⟩,
   ⟨"Info", "INFO".data, "blue", false⟩,
   ⟨"Debug", "DEBUG".data, "black", true⟩]

/-- An empty literal filter pattern (matches every record). -/
def emptyPat : Pattern := ⟨[], false⟩

/-- A run of the application exercising a partial projection whose dirty
start index is immediately preceded by an invisible record: append an
Error and an Info record, project, toggle Info off and re-project, then
append a new Error record and project from the dirty index returned by
`appendLogLines`. -/
def gapRun : Option ProjState := do
  let s1 := appendLogLines lLogLevels []
    ["2024-01-01 ERROR alpha".data, "2024-01-02 INFO beta".data]
  let (st1, _) ← updateLogWidget lLogLevels emptyPat none ⟨s1.1, emptyWidget⟩ s1.2
  let (st2, _) ← updateLogWidget infoOffLevels emptyPat none st1 0
  let s3 := appendLogLines infoOffLevels st2.exprs ["2024-01-03 ERROR gamma".data]
  let (st3, _) ← updateLogWidget infoOffLevels emptyPat none ⟨s3.1, st2.widget⟩ s3.2
  pure st3

/-- A projection state holding one visible, already rendered record (the
result of projecting a single Error record into an empty widget). -/
def oneRecordSt : ProjState :=
  ⟨[⟨"2024-01-01 ERROR alpha".data, some 0, some 1, some 2, true⟩],
   "2024-01-01 ERROR alpha".data ++ ['\n', '\n']⟩

/-- A record list whose last (and only) record is currently invisible,
with the stale render-range cache a projection leaves on it. -/
def staleInvisibleExprs : List Expression :=
  [⟨"2024-01-01 a".data, some 2, some 1, some 2, false⟩]

/-- A controller state with one displayed record, a running watch, and a
recent file, used to probe `openNewSourceFile` on a missing path. -/
def busyAppState : AppState :=
  ⟨[⟨"2024-01-01 ERROR alpha".data, some 0, some 1, some 2, true⟩],
   "2024-01-01 ERROR alpha".data ++ ['\n', '\n'],
   ["old.log".data], true, ["pending chunk".data]⟩

/-- C2: appending the chunk
`"2024-01-01 INFO start\nextra line\n2024-01-02 ERROR boom\n"` to an
empty record list produces exactly two records: the first with the
continuation joined by a newline and severity Info (table index 2), the
second with severity Error (table index 0). -/
theorem c2_chunk_scenario :
    (appendLogLines lLogLevels []
        (pySplitlines "2024-01-01 INFO start\nextra line\n2024-01-02 ERROR boom\n".data)).1
      = [⟨"2024-01-01 INFO start\nextra line".data, some 2, none, none, true⟩,
         ⟨"2024-01-02 ERROR boom".data, some 0, none, none, true⟩] ∧
    (lLogLevels.get? 2).map LogLevel.sName = some "Info" ∧
    (lLogLevels.get? 0).map LogLevel.sName = some "Error" := by
  decide

/-- C6 (code-bug evidence): a continuation line promoted to the first
record while the record list is empty is nevertheless classified — the
source guard `bIsExpr is not None` is always true — so the line
`" ERROR boom"`, which is not a record start, yields a record whose
severity is Error rather than absent. -/
theorem c6_promoted_record_classified :
    isLogLineStart " ERROR boom".data = false ∧
    (appendLogLines lLogLevels [] [" ERROR boom".data]).1
      = [⟨" ERROR boom".data, some 0, none, none, true⟩] ∧
    (lLogLevels.get? 0).map LogLevel.sName = some "Error" := by
  decide

/-- C3 (counterexample): when the chunk's first non-empty line is a
continuation of a currently invisible last record, `appendLogLines`
mutates record 0 (its text grows) yet returns dirty start index 1, not
the index of the mutated record — the decrement is guarded by
`oLastExpr.bDisplay`. -/
theorem c3_dirty_counterexample :
    (appendLogLines lLogLevels staleInvisibleExprs ["cont".data]).2 = 1 ∧
    (appendLogLines lLogLevels staleInvisibleExprs ["cont".data]).1.get? 0 ≠
      staleInvisibleExprs.get? 0 := by
  decide

/-- C4 (code-bug evidence): in `gapRun` the dirty start index (2) is
immediately preceded by the invisible Info record, whose stale cached
`sEndIdx` (3) is used as the edit point; the visible records end up with
ranges `[1,2)` and `[3,4)`, leaving a one-line gap: the render end of the
first visible record differs from the render start of the next visible
record. -/
theorem c4_render_gap :
    gapRun.map (fun st => st.exprs.map (fun e => (e.sStartIdx, e.sEndIdx, e.bDisplay)))
      = some [(some 1, some 2, true), (some 2, some 3, false), (some 3, some 4, true)] ∧
    gapRun.bind (fun st => (st.exprs.get? 0).bind Expression.sEndIdx) ≠
      gapRun.bind (fun st => (st.exprs.get? 2).bind Expression.sStartIdx) := by
  decide

/-- C5 (counterexample): projecting `oneRecordSt` twice with the same
record list, empty filter, all severities enabled and no intervening
change produces, the second time, the same non-empty edit script — a
truncation instruction and an append instruction — not an empty one. -/
theorem c5_second_call_counterexample :
    ((updateLogWidget lLogLevels emptyPat none oneRecordSt 0).bind
        (fun x => updateLogWidget lLogLevels emptyPat none x.1 0)).map Prod.snd
      = some [EditOp.truncateFrom 1,
              EditOp.append "2024-01-01 ERROR alpha".data (some 0)] ∧
    ([EditOp.truncateFrom 1,
      EditOp.append "2024-01-01 ERROR alpha".data (some 0)] : List EditOp) ≠ [] := by
  decide

/-- C9 (counterexample): opening a missing source file returns with the
prior state fully intact — in particular the previously displayed record
list is not cleared, contradicting the claimed clear-before-open
policy. -/
theorem c9_failed_open_counterexample :
    openNewSourceFile false "missing.log".data busyAppState = (busyAppState, false) ∧
    busyAppState.lExpressions ≠ [] := by
  decide

/-- C9 (amended): when the path is not a regular file, `openNewSourceFile`
fails immediately without starting a watch and leaves the whole prior
state (records, rendered output, recent files, watch flag, queue)
untouched; clearing happens only on the successful path, where the watch
starts on a cleared log and an emptied queue. -/
theorem c9_open_source_amended (path : List Char) (st : AppState) :
    openNewSourceFile false path st = (st, false) ∧
    (openNewSourceFile true path st).1.lExpressions = [] ∧
    (openNewSourceFile true path st).1.bWatchFile = true ∧
    (openNewSourceFile true path st).1.queue = [] ∧
    (openNewSourceFile true path st).2 = true :=
  ⟨rfl, rfl, rfl, rfl, rfl⟩

/-- A successful classifier lookup names a level of the table whose
detection regex matched (index counted from the probe offset). -/
lemma getLogLevelAux_some {levels : List LogLevel} {s : List Char} {j i : Nat}
    (h : getLogLevelAux levels s j = some i) :
    ∃ l, levels.get? (i - j) = some l ∧ l.matches s = true ∧ j ≤ i := by
  induction levels generalizing j with
  | nil => simp [getLogLevelAux] at h
  | cons l rest ih =>
      rw [getLogLevelAux] at h
      by_cases hm : l.matches s
      · rw [if_pos hm] at h
        obtain rfl : j = i := Option.some.inj h
        exact ⟨l, by simp, hm, le_refl j⟩
      · rw [if_neg hm] at h
        obtain ⟨l', hget, hmatch, hle⟩ := ih h
        refine ⟨l', ?_, hmatch, by omega⟩
        have hij : i - j = (i - (j + 1)) + 1 := by omega
        rw [hij]
        simpa using hget

/-- The severity regex `^.*\sKW\s` succeeds only if the keyword occurs
with whitespace immediately before and after it at some offset. -/
lemma levelSearch_exists {kw s : List Char} (h : levelSearch kw s = true) :
    ∃ j, matchAt kw (s.drop j) = true := by
  induction s with
  | nil => simp [levelSearch] at h
  | cons c rest ih =>
      rw [levelSearch] at h
      simp only [Bool.or_eq_true] at h
      rcases h with h1 | h2
      · exact ⟨0, h1⟩
      · by_cases hc : c = '\n'
        · rw [if_pos hc] at h2
          exact absurd h2 (by simp)
        · rw [if_neg hc] at h2
          obtain ⟨j, hj⟩ := ih h2
          exact ⟨j + 1, by simpa using hj⟩

/-- C10: the classifier returns a level only when that level's keyword
occurs in the text flanked by whitespace on both sides; in particular a
text starting with `"ERROR "` at the very beginning of the line, or one
containing `"ERROR:"`, is classified as none. -/
theorem c10_severity_needs_whitespace :
    (∀ (levels : List LogLevel) (t : List Char) (i : Nat),
        getLogLevel levels t = some i →
        ∃ l, levels.get? i = some l ∧ ∃ j, matchAt l.kw (t.drop j) = true) ∧
    getLogLevel lLogLevels "ERROR boom".data = none ∧
    getLogLevel lLogLevels "x ERROR: y".data = none := by
  refine ⟨?_, by decide, by decide⟩
  intro levels t i h
  obtain ⟨l, hget, hm, _⟩ := getLogLevelAux_some h
  rw [Nat.sub_zero] at hget
  exact ⟨l, hget, levelSearch_exists (by simpa [LogLevel.matches] using hm)⟩

/-- Witness for C10: the theorem applied to the text `"x ERROR y"`, which
the classifier maps to level 0 (Error). -/
theorem c10_witness :
    ∃ l, lLogLevels.get? 0 = some l ∧
      ∃ j, matchAt l.kw ("x ERROR y".data.drop j) = true :=
  c10_severity_needs_whitespace.1 lLogLevels "x ERROR y".data 0 (by decide)

/-- C8: a non-empty pattern compiled in regex mode whose compilation
failed (abstract engine `none`, the `except: return` path of
`getAllMatches`) behaves as a match-nothing pattern: `matches` is false
and `getAllMatches` yields no spans, for every text; totality of the
model reflects that no error escapes to the caller. -/
theorem c8_invalid_regex_matches_nothing (p : Pattern) (t : List Char)
    (hne : p.sPattern ≠ []) (hreg : p.bRegex = true) :
    p.matches none t = false ∧ p.getAllMatches none t = [] := by
  have he : p.sPattern.isEmpty = false := by
    cases hp : p.sPattern with
    | nil => exact absurd hp hne
    | cons a l => rfl
  refine ⟨?_, ?_⟩
  · simp [Pattern.matches, Pattern.getAllMatches, he, hreg]
  · simp [Pattern.getAllMatches, he, hreg]

/-- Witness for C8: the invalid regex `"("` matches nothing on `"abc"`. -/
theorem c8_witness :
    Pattern.matches ⟨"(".data, true⟩ none "abc".data = false ∧
    Pattern.getAllMatches ⟨"(".data, true⟩ none "abc".data = [] :=
  c8_invalid_regex_matches_nothing ⟨"(".data, true⟩ "abc".data (by decide) rfl

/-- Python `str.find` returns an offset at or after the requested start. -/
lemma strFind_ge {t pat : List Char} {start i : Nat}
    (h : strFind t pat start = some i) : start ≤ i := by
  have hp := List.find?_some h
  simp only [Bool.and_eq_true, decide_eq_true_eq] at hp
  exact hp.1

/-- Every offset produced by the `findAll` loop is at or after the
current scan position. -/
lemma findAllFrom_ge {t pat : List Char} :
    ∀ {fuel start x : Nat}, x ∈ findAllFrom t pat start fuel → start ≤ x := by
  intro fuel
  induction fuel with
  | zero => intro start x h; simp [findAllFrom] at h
  | succ n ih =>
      intro start x h
      rw [findAllFrom] at h
      cases hf : strFind t pat start with
      | none => rw [hf] at h; simp at h
      | some i =>
          rw [hf] at h
          rcases List.mem_cons.mp h with rfl | hm
          · exact strFind_ge hf
          · exact le_trans (le_trans (strFind_ge hf) (Nat.le_add_right i pat.length)) (ih hm)

/-- Consecutive offsets produced by the `findAll` loop are at least a
pattern length apart (the scan resumes past each match's end). -/
lemma findAllFrom_chain (t pat : List Char) :
    ∀ (fuel start : Nat),
      List.Chain' (fun a b => a + pat.length ≤ b) (findAllFrom t pat start fuel) := by
  intro fuel
  induction fuel with
  | zero => intro start; simp [findAllFrom]
  | succ n ih =>
      intro start
      rw [findAllFrom]
      cases hf : strFind t pat start with
      | none => simp
      | some i =>
          rw [List.chain'_cons']
          refine ⟨?_, ih _⟩
          intro b hb
          exact findAllFrom_ge (List.mem_of_mem_head? hb)

/-- Python `str.lower` preserves length. -/
lemma lowerStr_length (s : List Char) : (lowerStr s).length = s.length :=
  List.length_map s pyLower

/-- C7: all spans produced by `getAllMatches` are non-overlapping and
left-to-right — each span's start is at least the previous span's end —
where in regex mode this is inherited from the engine's own
non-overlapping match semantics (the hypothesis); in literal mode the
spans are additionally strictly increasing and depend only on the
lowercased pattern and text (case-insensitive matching). -/
theorem c7_all_matches_spans (p : Pattern)
    (r : Option (List Char → List (Nat × Nat))) (t : List Char)
    (hre : ∀ f, r = some f → spansOrdered (f t)) :
    spansOrdered (p.getAllMatches r t) ∧
    (p.bRegex = false →
      spansStrict (p.getAllMatches r t) ∧
      ∀ (q : Pattern) (u : List Char), q.bRegex = false →
        lowerStr q.sPattern = lowerStr p.sPattern → lowerStr u = lowerStr t →
        q.getAllMatches r u = p.getAllMatches r t) := by
  by_cases he : p.sPattern.isEmpty
  · constructor
    · simp [Pattern.getAllMatches, he, spansOrdered]
    · intro hb
      constructor
      · simp [Pattern.getAllMatches, he, spansStrict]
      · intro q u hq hqp hut
        have hpnil : p.sPattern = [] := by
          cases hp : p.sPattern with
          | nil => rfl
          | cons a l => rw [hp] at he; exact absurd he (by simp)
        have hqnil : q.sPattern = [] := by
          have hlen : q.sPattern.length = p.sPattern.length := by
            have := congrArg List.length hqp
            rwa [lowerStr_length, lowerStr_length] at this
          rw [hpnil] at hlen
          exact List.eq_nil_of_length_eq_zero hlen
        simp [Pattern.getAllMatches, hpnil, hqnil]
  · have hne : p.sPattern ≠ [] := by
      intro hp; rw [hp] at he; exact he rfl
    by_cases hb : p.bRegex
    · constructor
      · cases hr : r with
        | none => simp [Pattern.getAllMatches, he, hb, spansOrdered]
        | some f =>
            have := hre f hr
            simpa [Pattern.getAllMatches, he, hb] using this
      · intro hfalse; rw [hb] at hfalse; exact absurd hfalse (by simp)
    · have hbf : p.bRegex = false := by
        cases hbb : p.bRegex with
        | false => rfl
        | true => exact absurd hbb hb
      have hchain : List.Chain' (fun a b => a + p.sPattern.length ≤ b)
          (findAll (lowerStr t) (lowerStr p.sPattern)) := by
        have h0 := findAllFrom_chain (lowerStr t) (lowerStr p.sPattern)
          ((lowerStr t).length + 1) 0
        rw [lowerStr_length] at h0
        exact h0
      have hL : 1 ≤ p.sPattern.length := by
        cases hp : p.sPattern with
        | nil => exact absurd hp hne
        | cons a l => simp
      constructor
      · rw [Pattern.getAllMatches.eq_def, if_neg he, if_neg hb]
        rw [spansOrdered, List.chain'_map]
        exact hchain.imp (fun a b hab => hab)
      · intro _
        constructor
        · rw [Pattern.getAllMatches.eq_def, if_neg he, if_neg hb]
          rw [spansStrict, List.chain'_map]
          exact hchain.imp (fun a b hab => by omega)
        · intro q u hq hqp hut
          have hqlen : q.sPattern.length = p.sPattern.length := by
            have := congrArg List.length hqp
            rwa [lowerStr_length, lowerStr_length] at this
          have hqe : ¬q.sPattern.isEmpty = true := by
            cases hqp2 : q.sPattern with
            | nil =>
                exfalso
                rw [hqp2] at hqlen
                simp at hqlen
                omega
            | cons a l => simp
          rw [Pattern.getAllMatches.eq_def, Pattern.getAllMatches.eq_def,
            if_neg he, if_neg hb, if_neg hqe, if_neg (by simp [hq])]
          rw [hqp, hut, hqlen]

/-- Witness for C7: the literal pattern `"o"` over `"foo bar boo"`, with
no regex engine involved. -/
theorem c7_witness :
    spansOrdered (Pattern.getAllMatches ⟨['o'], false⟩ none "foo bar boo".data) ∧
    spansStrict (Pattern.getAllMatches ⟨['o'], false⟩ none "foo bar boo".data) := by
  have h := c7_all_matches_spans ⟨['o'], false⟩ none "foo bar boo".data
    (fun f hf => Option.noConfusion hf)
  exact ⟨h.1, (h.2 rfl).1⟩

/-- The loop body of `updateLogWidget` on a record whose recomputed
visibility is true. -/
lemma projectOne_vis {levels : List LogLevel} {p : Pattern}
    {r : Option (List Char → List (Nat × Nat))} {e : Expression}
    (h : specVisible levels p r e = true)
    (done : List Expression) (S : List Char) (n : Nat) (sc : List EditOp) :
    projectOne levels p r (done, S, n, sc) e =
      (done ++ [{ e with bDisplay := true
                         sStartIdx := some n
                         sEndIdx := some (n + 1 + countNl e.sText) }],
       insertAtEnd S (e.sText ++ ['\n']), n + 1 + countNl e.sText,
       sc ++ [EditOp.append e.sText e.oLogLevel]) := by
  rw [specVisible, Bool.and_eq_true] at h
  obtain ⟨h1, h2⟩ := h
  cases ho : e.oLogLevel with
  | none => simp [projectOne, h1, ho]
  | some j =>
      rw [ho] at h2
      simp only [levelEnabled, List.get?_eq_getElem?] at h2
      simp [projectOne, h1, ho, h2]

/-- The loop body of `updateLogWidget` on a record whose recomputed
visibility is false. -/
lemma projectOne_invis {levels : List LogLevel} {p : Pattern}
    {r : Option (List Char → List (Nat × Nat))} {e : Expression}
    (h : specVisible levels p r e = false)
    (done : List Expression) (S : List Char) (n : Nat) (sc : List EditOp) :
    projectOne levels p r (done, S, n, sc) e =
      (done ++ [{ e with bDisplay := false }], S, n, sc) := by
  rw [specVisible] at h
  by_cases h1 : p.matches r e.sText
  · rw [h1, Bool.true_and] at h
    cases ho : e.oLogLevel with
    | none =>
        rw [ho] at h
        simp [levelEnabled] at h
    | some j =>
        rw [ho] at h
        simp only [levelEnabled, List.get?_eq_getElem?] at h
        simp [projectOne, h1, ho, h]
  · have h1' : p.matches r e.sText = false := by
      cases hb : p.matches r e.sText with
      | false => rfl
      | true => exact absurd hb h1
    simp [projectOne, h1']

/-- The record component of the `updateLogWidget` fold is `projExprs`. -/
lemma foldl_projectOne_exprs {levels : List LogLevel} {p : Pattern}
    {r : Option (List Char → List (Nat × Nat))} :
    ∀ (l done : List Expression) (S : List Char) (n : Nat) (sc : List EditOp),
      (l.foldl (projectOne levels p r) (done, S, n, sc)).1
        = done ++ projExprs levels p r n l := by
  intro l
  induction l with
  | nil => intro done S n sc; simp [projExprs]
  | cons e rest ih =>
      intro done S n sc
      rw [List.foldl_cons]
      by_cases hv : specVisible levels p r e
      · rw [projectOne_vis hv, ih]
        simp [projExprs, hv]
      · have hv' : specVisible levels p r e = false := by
          cases hb : specVisible levels p r e with
          | false => rfl
          | true => exact absurd hb hv
        rw [projectOne_invis hv', ih]
        simp [projExprs, hv']

/-- The edit-script component of the `updateLogWidget` fold is
`projScript`. -/
lemma foldl_projectOne_script {levels : List LogLevel} {p : Pattern}
    {r : Option (List Char → List (Nat × Nat))} :
    ∀ (l done : List Expression) (S : List Char) (n : Nat) (sc : List EditOp),
      (l.foldl (projectOne levels p r) (done, S, n, sc)).2.2.2
        = sc ++ projScript levels p r l := by
  intro l
  induction l with
  | nil => intro done S n sc; simp [projScript]
  | cons e rest ih =>
      intro done S n sc
      rw [List.foldl_cons]
      by_cases hv : specVisible levels p r e
      · rw [projectOne_vis hv, ih]
        simp [projScript, List.filter_cons, hv]
      · have hv' : specVisible levels p r e = false := by
          cases hb : specVisible levels p r e with
          | false => rfl
          | true => exact absurd hb hv
        rw [projectOne_invis hv', ih]
        simp [projScript, List.filter_cons, hv']

/-- Projection `updateLogWidget` succeeds exactly when the edit line can be read,
and then produces `projExprs` and the truncate-then-append script. -/
lemma updateLogWidget_eq (levels : List LogLevel) (p : Pattern)
    (r : Option (List Char → List (Nat × Nat))) {st : ProjState} {i n : Nat}
    (hn : (match (st.exprs.take i).getLast? with
           | none => some 1
           | some e => e.sEndIdx) = some n) :
    ∃ W, updateLogWidget levels p r st i =
      some (⟨st.exprs.take i ++ projExprs levels p r n (st.exprs.drop i), W⟩,
            EditOp.truncateFrom n :: projScript levels p r (st.exprs.drop i)) := by
  refine ⟨((st.exprs.drop i).foldl (projectOne levels p r)
    (st.exprs.take i,
     (if 1 < n then insertAtEnd (deleteToEnd st.widget n) ['\n']
      else deleteToEnd st.widget n), n, [EditOp.truncateFrom n])).2.1, ?_⟩
  rw [updateLogWidget, hn]
  simp only [foldl_projectOne_exprs, foldl_projectOne_script, List.singleton_append]

/-- Pointwise content of `projExprs`: text and severity are untouched and
the visibility flag is recomputed from filter and toggle. -/
lemma projExprs_get {levels : List LogLevel} {p : Pattern}
    {r : Option (List Char → List (Nat × Nat))} :
    ∀ (l : List Expression) (n j : Nat) (e : Expression), l.get? j = some e →
      ∃ e', (projExprs levels p r n l).get? j = some e' ∧ e'.sText = e.sText ∧
        e'.oLogLevel = e.oLogLevel ∧ e'.bDisplay = specVisible levels p r e := by
  intro l
  induction l with
  | nil => intro n j e h; simp at h
  | cons a rest ih =>
      intro n j e h
      cases j with
      | zero =>
          have ha : a = e := by simpa using h
          by_cases hv : specVisible levels p r a
          · refine ⟨{ a with bDisplay := true
                             sStartIdx := some n
                             sEndIdx := some (n + 1 + countNl a.sText) },
              by simp [projExprs, hv], ?_, ?_, ?_⟩
            · rw [← ha]
            · rw [← ha]
            · rw [← ha]; simp [hv]
          · have hv' : specVisible levels p r a = false := by
              cases hb : specVisible levels p r a with
              | false => rfl
              | true => exact absurd hb hv
            refine ⟨{ a with bDisplay := false },
              by simp [projExprs, hv'], ?_, ?_, ?_⟩
            · rw [← ha]
            · rw [← ha]
            · rw [← ha]; simp [hv']
      | succ j' =>
          have h' : rest.get? j' = some e := by simpa using h
          by_cases hv : specVisible levels p r a
          · obtain ⟨e', h1, h2, h3, h4⟩ := ih (n + 1 + countNl a.sText) j' e h'
            exact ⟨e', by simpa [projExprs, hv] using h1, h2, h3, h4⟩
          · have hv' : specVisible levels p r a = false := by
              cases hb : specVisible levels p r a with
              | false => rfl
              | true => exact absurd hb hv
            obtain ⟨e', h1, h2, h3, h4⟩ := ih n j' e h'
            exact ⟨e', by simpa [projExprs, hv'] using h1, h2, h3, h4⟩

/-- C1: when a projection from dirty index `i` succeeds, every record at
or after `i` gets its visibility recomputed as «filter matches the text
AND (severity is none OR that severity's toggle is enabled)» with text
and severity untouched, and the edit script appends exactly the visible
records, in order, tagged with their severity — invisible records are
omitted. -/
theorem c1_projection_visibility (levels : List LogLevel) (p : Pattern)
    (r : Option (List Char → List (Nat × Nat))) (st : ProjState) (i : Nat)
    (st' : ProjState) (script : List EditOp)
    (h : updateLogWidget levels p r st i = some (st', script)) :
    (∀ k e, i ≤ k → st.exprs.get? k = some e →
      ∃ e', st'.exprs.get? k = some e' ∧ e'.sText = e.sText ∧
        e'.oLogLevel = e.oLogLevel ∧
        e'.bDisplay = (p.matches r e.sText && levelEnabled levels e.oLogLevel)) ∧
    ∃ n, script = EditOp.truncateFrom n ::
      ((st.exprs.drop i).filter (specVisible levels p r)).map
        (fun e => EditOp.append e.sText e.oLogLevel) := by
  cases hm : (match (st.exprs.take i).getLast? with
              | none => some 1
              | some e => e.sEndIdx) with
  | none =>
      rw [updateLogWidget, hm] at h
      exact Option.noConfusion h
  | some n =>
      obtain ⟨W, hW⟩ := updateLogWidget_eq levels p r hm
      rw [hW] at h
      obtain ⟨hst, hsc⟩ : st' = ⟨st.exprs.take i ++ projExprs levels p r n (st.exprs.drop i), W⟩ ∧
          script = EditOp.truncateFrom n :: projScript levels p r (st.exprs.drop i) := by
        have := Option.some.inj h
        exact ⟨congrArg Prod.fst this.symm, congrArg Prod.snd this.symm⟩
      constructor
      · intro k e hik hk
        have hklen : k < st.exprs.length := by
          by_contra hc
          push_neg at hc
          rw [List.get?_eq_none.mpr hc] at hk
          exact Option.noConfusion hk
        have htlen : (st.exprs.take i).length = i := by
          rw [List.length_take]
          exact Nat.min_eq_left (le_of_lt (lt_of_le_of_lt hik hklen))
        have hdrop : (st.exprs.drop i).get? (k - i) = some e := by
          rw [List.get?_drop]
          rwa [Nat.add_sub_cancel' hik]
        obtain ⟨e', h1, h2, h3, h4⟩ := projExprs_get (st.exprs.drop i) n (k - i) e hdrop
        refine ⟨e', ?_, h2, h3, h4⟩
        rw [hst]
        show ((st.exprs.take i) ++ projExprs levels p r n (st.exprs.drop i)).get? k = some e'
        rw [List.get?_append_right (by rw [htlen]; exact hik)]
        rwa [htlen]
      · exact ⟨n, by rw [hsc]; rfl⟩

/-- Projection preserves the number of records. -/
lemma projExprs_length {levels : List LogLevel} {p : Pattern}
    {r : Option (List Char → List (Nat × Nat))} :
    ∀ (l : List Expression) (n : Nat), (projExprs levels p r n l).length = l.length := by
  intro l
  induction l with
  | nil => intro n; simp [projExprs]
  | cons a rest ih =>
      intro n
      by_cases hv : specVisible levels p r a
      · simp [projExprs, hv, ih]
      · have hv' : specVisible levels p r a = false := by
          cases hb : specVisible levels p r a with
          | false => rfl
          | true => exact absurd hb hv
        simp [projExprs, hv', ih]

/-- Re-projecting an already projected suffix from the same start line
recomputes exactly the same visibility flags and render ranges. -/
lemma projExprs_idem {levels : List LogLevel} {p : Pattern}
    {r : Option (List Char → List (Nat × Nat))} :
    ∀ (l : List Expression) (n : Nat),
      projExprs levels p r n (projExprs levels p r n l) = projExprs levels p r n l := by
  intro l
  induction l with
  | nil => intro n; simp [projExprs]
  | cons a rest ih =>
      intro n
      by_cases hv : specVisible levels p r a
      · simp only [projExprs, hv, if_true]
        have hv2 : specVisible levels p r
            { a with bDisplay := true
                     sStartIdx := some n
                     sEndIdx := some (n + 1 + countNl a.sText) } = true := hv
        simp [projExprs, hv2, ih]
      · have hv' : specVisible levels p r a = false := by
          cases hb : specVisible levels p r a with
          | false => rfl
          | true => exact absurd hb hv
        simp only [projExprs, hv', Bool.false_eq_true, if_false]
        have hv2 : specVisible levels p r { a with bDisplay := false } = false := hv'
        simp [projExprs, hv2, ih]

/-- Unfolding `projScript` on a visible head record. -/
lemma projScript_cons_vis {levels : List LogLevel} {p : Pattern}
    {r : Option (List Char → List (Nat × Nat))} {a : Expression}
    (hv : specVisible levels p r a = true) (l : List Expression) :
    projScript levels p r (a :: l)
      = EditOp.append a.sText a.oLogLevel :: projScript levels p r l := by
  simp [projScript, List.filter_cons, hv]

/-- Unfolding `projScript` on an invisible head record. -/
lemma projScript_cons_invis {levels : List LogLevel} {p : Pattern}
    {r : Option (List Char → List (Nat × Nat))} {a : Expression}
    (hv : specVisible levels p r a = false) (l : List Expression) :
    projScript levels p r (a :: l) = projScript levels p r l := by
  simp [projScript, List.filter_cons, hv]

/-- The append script computed from an already projected suffix is the
script computed from the original records. -/
lemma projScript_projExprs {levels : List LogLevel} {p : Pattern}
    {r : Option (List Char → List (Nat × Nat))} :
    ∀ (l : List Expression) (n : Nat),
      projScript levels p r (projExprs levels p r n l) = projScript levels p r l := by
  intro l
  induction l with
  | nil => intro n; simp [projExprs]
  | cons a rest ih =>
      intro n
      by_cases hv : specVisible levels p r a
      · simp only [projExprs, hv, if_true]
        have hv2 : specVisible levels p r
            { a with bDisplay := true
                     sStartIdx := some n
                     sEndIdx := some (n + 1 + countNl a.sText) } = true := hv
        rw [projScript_cons_vis hv2, projScript_cons_vis hv, ih]
      · have hv' : specVisible levels p r a = false := by
          cases hb : specVisible levels p r a with
          | false => rfl
          | true => exact absurd hb hv
        simp only [projExprs, hv', Bool.false_eq_true, if_false]
        have hv2 : specVisible levels p r { a with bDisplay := false } = false := hv'
        rw [projScript_cons_invis hv2, projScript_cons_invis hv', ih]

/-- Splitting a list rebuilt from its own prefix and a replacement suffix
of matching length recovers the two parts. -/
lemma take_drop_append {α : Type} (xs R : List α) (i : Nat)
    (hlen : R.length = (xs.drop i).length) :
    (xs.take i ++ R).take i = xs.take i ∧ (xs.take i ++ R).drop i = R := by
  by_cases hi : i ≤ xs.length
  · have h1 : (xs.take i).length = i := by
      rw [List.length_take]
      exact Nat.min_eq_left hi
    exact ⟨List.take_left' h1, List.drop_left' h1⟩
  · push_neg at hi
    have hdrop : xs.drop i = [] := List.drop_eq_nil_of_le (le_of_lt hi)
    have hR : R = [] := by
      rw [hdrop] at hlen
      exact List.eq_nil_of_length_eq_zero hlen
    rw [hR, List.append_nil]
    constructor
    · rw [List.take_take, Nat.min_self]
    · exact List.drop_eq_nil_of_le (by rw [List.length_take]; omega)

/-- C5 (amended): with no intervening append or pattern change, a second
identical projection leaves every record's visibility flag and render
range unchanged and re-emits the identical truncate-then-append edit
script — it is idempotent on the record state and on the script content,
though the script is not empty. -/
theorem c5_projection_state_idempotent (levels : List LogLevel) (p : Pattern)
    (r : Option (List Char → List (Nat × Nat))) (st : ProjState) (i : Nat)
    (st1 st2 : ProjState) (sc1 sc2 : List EditOp)
    (h1 : updateLogWidget levels p r st i = some (st1, sc1))
    (h2 : updateLogWidget levels p r st1 i = some (st2, sc2)) :
    st2.exprs = st1.exprs ∧ sc2 = sc1 := by
  cases hm : (match (st.exprs.take i).getLast? with
              | none => some 1
              | some e => e.sEndIdx) with
  | none =>
      rw [updateLogWidget, hm] at h1
      exact Option.noConfusion h1
  | some n =>
      obtain ⟨W, hW⟩ := updateLogWidget_eq levels p r hm
      rw [hW] at h1
      have h1' := Option.some.inj h1
      have hst1 : st1 = ⟨st.exprs.take i ++ projExprs levels p r n (st.exprs.drop i), W⟩ :=
        (congrArg Prod.fst h1').symm
      have hsc1 : sc1 = EditOp.truncateFrom n :: projScript levels p r (st.exprs.drop i) :=
        (congrArg Prod.snd h1').symm
      have hsplit := take_drop_append st.exprs
        (projExprs levels p r n (st.exprs.drop i)) i (projExprs_length _ n)
      have htake : st1.exprs.take i = st.exprs.take i := by
        rw [hst1]
        exact hsplit.1
      have hdrop : st1.exprs.drop i = projExprs levels p r n (st.exprs.drop i) := by
        rw [hst1]
        exact hsplit.2
      have hm2 : (match (st1.exprs.take i).getLast? with
                  | none => some 1
                  | some e => e.sEndIdx) = some n := by
        rw [htake]
        exact hm
      obtain ⟨W2, hW2⟩ := updateLogWidget_eq levels p r hm2
      rw [hW2] at h2
      have h2' := Option.some.inj h2
      have hst2 : st2 = ⟨st1.exprs.take i ++ projExprs levels p r n (st1.exprs.drop i), W2⟩ :=
        (congrArg Prod.fst h2').symm
      have hsc2 : sc2 = EditOp.truncateFrom n :: projScript levels p r (st1.exprs.drop i) :=
        (congrArg Prod.snd h2').symm
      constructor
      · rw [hst2, htake, hdrop, projExprs_idem, hst1]
      · rw [hsc2, hsc1, hdrop, projScript_projExprs]

/-- Witness for C5 (amended): projecting `oneRecordSt` twice from index 0
leaves the records and the emitted script unchanged. -/
theorem c5_witness :
    oneRecordSt.exprs = oneRecordSt.exprs ∧
    ([EditOp.truncateFrom 1,
      EditOp.append "2024-01-01 ERROR alpha".data (some 0)] : List EditOp)
      = [EditOp.truncateFrom 1,
         EditOp.append "2024-01-01 ERROR alpha".data (some 0)] :=
  c5_projection_state_idempotent lLogLevels emptyPat none oneRecordSt 0
    oneRecordSt oneRecordSt
    [EditOp.truncateFrom 1, EditOp.append "2024-01-01 ERROR alpha".data (some 0)]
    [EditOp.truncateFrom 1, EditOp.append "2024-01-01 ERROR alpha".data (some 0)]
    (by decide) (by decide)

/-- One `appendLogLines` iteration never shrinks the record list. -/
lemma processLine_length_le (levels : List LogLevel) (exprs : List Expression)
    (s : List Char) : exprs.length ≤ (processLine levels exprs s).length := by
  rw [processLine]
  by_cases hc : isLogLineStart s || exprs.isEmpty
  · rw [if_pos hc]; simp
  · rw [if_neg hc, extendLast]
    cases hl : exprs.getLast? with
    | none => exact le_refl _
    | some e =>
        have hne : exprs ≠ [] := by
          intro hnil
          rw [hnil] at hl
          exact Option.noConfusion hl
        have hpos : 0 < exprs.length := List.length_pos.mpr hne
        simp only [List.length_append, List.length_dropLast, List.length_cons,
          List.length_nil]
        omega

/-- The `appendLogLines` loop never shrinks the record list. -/
lemma foldl_processLine_length_le (levels : List LogLevel) :
    ∀ (l : List (List Char)) (acc : List Expression),
      acc.length ≤ (l.foldl (processLine levels) acc).length := by
  intro l
  induction l with
  | nil => intro acc; exact le_refl _
  | cons s rest ih =>
      intro acc
      rw [List.foldl_cons]
      exact le_trans (processLine_length_le levels acc s) (ih _)

/-- One `appendLogLines` iteration leaves all records strictly before the
last untouched. -/
lemma processLine_get?_lt (levels : List LogLevel) (exprs : List Expression)
    (s : List Char) {k : Nat} (hk : k + 1 < exprs.length) :
    (processLine levels exprs s).get? k = exprs.get? k := by
  rw [processLine]
  by_cases hc : isLogLineStart s || exprs.isEmpty
  · rw [if_pos hc]
    exact List.get?_append (by omega)
  · rw [if_neg hc, extendLast]
    cases hl : exprs.getLast? with
    | none => rfl
    | some e =>
        have h1 : k < exprs.dropLast.length := by
          rw [List.length_dropLast]; omega
        rw [List.get?_append h1, List.dropLast_eq_take, List.get?_take (by omega)]

/-- The `appendLogLines` loop leaves all records strictly below the
initial last index untouched. -/
lemma foldl_processLine_get?_lt (levels : List LogLevel) :
    ∀ (l : List (List Char)) (acc : List Expression) (k : Nat), k + 1 < acc.length →
      (l.foldl (processLine levels) acc).get? k = acc.get? k := by
  intro l
  induction l with
  | nil => intro acc k hk; rfl
  | cons s rest ih =>
      intro acc k hk
      rw [List.foldl_cons,
        ih _ k (lt_of_lt_of_le hk (processLine_length_le levels acc s))]
      exact processLine_get?_lt levels acc s hk

/-- If the record at index `m` already has text longer than `t0`, it
still does after one more `appendLogLines` iteration (later lines either
append new records or extend the last record's text). -/
lemma processLine_grow (levels : List LogLevel) (exprs : List Expression)
    (s : List Char) {m : Nat} {t0 : List Char}
    (h : ∃ e, exprs.get? m = some e ∧ t0.length < e.sText.length) :
    ∃ e, (processLine levels exprs s).get? m = some e ∧ t0.length < e.sText.length := by
  obtain ⟨e, he, hlen⟩ := h
  have hm : m < exprs.length := by
    by_contra hc
    push_neg at hc
    rw [List.get?_eq_none.mpr hc] at he
    exact Option.noConfusion he
  rw [processLine]
  by_cases hc : isLogLineStart s || exprs.isEmpty
  · rw [if_pos hc]
    exact ⟨e, by rw [List.get?_append hm]; exact he, hlen⟩
  · rw [if_neg hc, extendLast]
    cases hl : exprs.getLast? with
    | none => exact ⟨e, he, hlen⟩
    | some a =>
        by_cases hm1 : m < exprs.length - 1
        · refine ⟨e, ?_, hlen⟩
          have h1 : m < exprs.dropLast.length := by
            rw [List.length_dropLast]; exact hm1
          rw [List.get?_append h1, List.dropLast_eq_take, List.get?_take hm1]
          exact he
        · have hmeq : m = exprs.length - 1 := by omega
          have hae : exprs.get? m = some a := by
            rw [hmeq, ← List.getLast?_eq_get?]
            exact hl
          have hea : a = e := by
            rw [hae] at he
            exact Option.some.inj he
          refine ⟨{ a with sText := a.sText ++ '\n' :: s }, ?_, ?_⟩
          · have hdl : exprs.dropLast.length = m := by
              rw [List.length_dropLast]; omega
            rw [List.get?_append_right (le_of_eq hdl)]
            rw [hdl, Nat.sub_self]
            rfl
          · have : e.sText.length ≤ a.sText.length := le_of_eq (by rw [hea])
            simp only [List.length_append, List.length_cons]
            omega

/-- The growth invariant of `processLine_grow`, through the whole loop. -/
lemma foldl_processLine_grow (levels : List LogLevel) :
    ∀ (l : List (List Char)) (acc : List Expression) (m : Nat) (t0 : List Char),
      (∃ e, acc.get? m = some e ∧ t0.length < e.sText.length) →
      ∃ e, (l.foldl (processLine levels) acc).get? m = some e ∧
        t0.length < e.sText.length := by
  intro l
  induction l with
  | nil => intro acc m t0 h; exact h
  | cons s rest ih =>
      intro acc m t0 h
      rw [List.foldl_cons]
      exact ih _ m t0 (processLine_grow levels acc s h)

/-- C3 (amended): for every call with at least one non-empty line, the
returned dirty start index is the index of the first record newly
created or mutated in the call, provided the first line starts a new
record, or the record list was empty, or the extended last record is
currently visible — when the first line instead extends an invisible
last record, the index returned is the old list length, one past the
mutated record (see the counterexample). -/
theorem c3_dirty_index_amended (levels : List LogLevel) (exprs : List Expression)
    (lLines : List (List Char)) (l0 : List Char) (rest : List (List Char))
    (hcl : cleanLines lLines = l0 :: rest)
    (hok : isLogLineStart l0 = true ∨ exprs = [] ∨ lastDisplayed exprs = true) :
    (∀ k, k < (appendLogLines levels exprs lLines).2 →
      (appendLogLines levels exprs lLines).1.get? k = exprs.get? k) ∧
    (appendLogLines levels exprs lLines).1.get?
        ((appendLogLines levels exprs lLines).2)
      ≠ exprs.get? ((appendLogLines levels exprs lLines).2) := by
  have heq : appendLogLines levels exprs lLines =
      (rest.foldl (processLine levels) (processLine levels exprs l0),
       if isLogLineStart l0 || exprs.isEmpty then exprs.length
       else if lastDisplayed exprs then exprs.length - 1 else exprs.length) := by
    rw [appendLogLines, hcl]
  rw [heq]
  by_cases hc : isLogLineStart l0 || exprs.isEmpty
  · have hacc : processLine levels exprs l0
        = exprs ++ [mkExpression l0 (getLogLevel levels l0)] := by
      rw [processLine, if_pos hc]
    constructor
    · intro k hk
      rw [if_pos hc] at hk
      have hlt : k + 1 < (processLine levels exprs l0).length := by
        rw [hacc, List.length_append]
        simp only [List.length_cons, List.length_nil]
        omega
      rw [foldl_processLine_get?_lt levels rest _ k hlt, hacc,
        List.get?_append (by simpa using hk)]
    · simp only [if_pos hc]
      have h1 : exprs.get? exprs.length = none :=
        List.get?_eq_none.mpr (le_refl _)
      have hlen1 : (processLine levels exprs l0).length = exprs.length + 1 := by
        rw [hacc, List.length_append]
        simp
      have h2 : exprs.length + 1 ≤
          (rest.foldl (processLine levels) (processLine levels exprs l0)).length := by
        have h3 := foldl_processLine_length_le levels rest (processLine levels exprs l0)
        omega
      rw [h1, Ne, List.get?_eq_none]
      omega
  · have hstart : isLogLineStart l0 = false := by
      cases hb : isLogLineStart l0 with
      | false => rfl
      | true =>
          exfalso
          rw [hb] at hc
          exact hc rfl
    have hne : exprs ≠ [] := by
      intro hnil
      rw [hnil] at hc
      simp at hc
    have hdisp : lastDisplayed exprs = true := by
      rcases hok with h | h | h
      · exact Bool.noConfusion (h.symm.trans hstart)
      · exact absurd h hne
      · exact h
    obtain ⟨a, hgl⟩ : ∃ a, exprs.getLast? = some a := by
      cases hg : exprs.getLast? with
      | none => exact absurd (List.getLast?_eq_none_iff.mp hg) hne
      | some a => exact ⟨a, rfl⟩
    have hpos : 0 < exprs.length := List.length_pos.mpr hne
    have hacc : processLine levels exprs l0
        = exprs.dropLast ++ [{ a with sText := a.sText ++ '\n' :: l0 }] := by
      rw [processLine, if_neg hc, extendLast, hgl]
    constructor
    · intro k hk
      rw [if_neg hc, if_pos hdisp] at hk
      have hk1 : k + 1 < exprs.length := by omega
      have hlt : k + 1 < (processLine levels exprs l0).length :=
        lt_of_lt_of_le hk1 (processLine_length_le levels exprs l0)
      rw [foldl_processLine_get?_lt levels rest _ k hlt]
      exact processLine_get?_lt levels exprs l0 hk1
    · simp only [if_neg hc, if_pos hdisp]
      have hlast : exprs.get? (exprs.length - 1) = some a := by
        rw [← List.getLast?_eq_get?]
        exact hgl
      have hbase : ∃ e, (processLine levels exprs l0).get? (exprs.length - 1)
          = some e ∧ a.sText.length < e.sText.length := by
        refine ⟨{ a with sText := a.sText ++ '\n' :: l0 }, ?_, ?_⟩
        · have hdl : exprs.dropLast.length = exprs.length - 1 :=
            List.length_dropLast exprs
          rw [hacc, List.get?_append_right (le_of_eq hdl), hdl, Nat.sub_self]
          rfl
        · simp only [List.length_append, List.length_cons]
          omega
      obtain ⟨e, hfin, hgrow⟩ := foldl_processLine_grow levels rest _ _ _ hbase
      rw [hfin, hlast]
      intro hcontra
      have : e = a := Option.some.inj hcontra
      rw [this] at hgrow
      omega

/-- Witness for C3 (amended): appending the record-start line
`"2024-01-01 x"` to an empty list creates record 0, and the dirty start
index is 0: the entry there changed. -/
theorem c3_witness :
    (appendLogLines lLogLevels [] ["2024-01-01 x".data]).1.get?
        ((appendLogLines lLogLevels [] ["2024-01-01 x".data]).2)
      ≠ ([] : List Expression).get?
        ((appendLogLines lLogLevels [] ["2024-01-01 x".data]).2) :=
  (c3_dirty_index_amended lLogLevels [] ["2024-01-01 x".data]
    "2024-01-01 x".data [] (by decide) (Or.inr (Or.inl rfl))).2

/-- Witness for C1: projecting `oneRecordSt` from index 0 succeeds and
emits the truncate-then-append script of its one visible record. -/
theorem c1_witness :
    ∃ n, ([EditOp.truncateFrom 1,
           EditOp.append "2024-01-01 ERROR alpha".data (some 0)] : List EditOp)
      = EditOp.truncateFrom n ::
        ((oneRecordSt.exprs.drop 0).filter (specVisible lLogLevels emptyPat none)).map
          (fun e => EditOp.append e.sText e.oLogLevel) :=
  (c1_projection_visibility lLogLevels emptyPat none oneRecordSt 0 oneRecordSt
    [EditOp.truncateFrom 1, EditOp.append "2024-01-01 ERROR alpha".data (some 0)]
    (by decide)).2

end LogReader
